import Mathlib

/-!
A shallow embedding of the request-routing core of the `tsukuyomi` web
framework (crate `tsukuyomi`, files `src/app.rs`, `src/app/service.rs`,
`src/extractor/local.rs`, `src/handler.rs`), together with proofs about it.

Conventions:
* HTTP methods and URI paths are Lean `String`s; Rust `str::starts_with`
  is embedded as a character-list prefix test (`strStartsWith`).
* Arena node identifiers (`NodeId` in `app/tree.rs`) are natural numbers.
* Opaque boxed values (fallback handlers, handler continuations) are
  represented by identifiers; the router never inspects them.
* `IndexMap` / `IndexSet` (insertion-ordered maps/sets) are embedded as
  association lists with unique keys, in insertion order.
-/

namespace Tsukuyomi

/-- An HTTP method, represented by its name (`"GET"`, `"OPTIONS"`, ...). -/
abbrev Method := String

/-- A node identifier into the scope arena (`tree::NodeId`). -/
abbrev NodeId := Nat

/-- An identifier standing for an opaque boxed fallback handler. -/
abbrev FallbackId := Nat

/-- Captured parameter positions: (start, end) byte ranges into the path. -/
abbrev Captures := List (Nat × Nat)

/-- Modelled from the spec: the root of the scope arena is the first node
(`NodeId::root()` in `app/tree.rs`, which is not among the analyzed sources). -/
def NodeId.root : NodeId := 0

/-- Embedding of Rust `str::starts_with`: `strStartsWith s p` holds when the
string `s` begins with `p`. -/
def strStartsWith (s p : String) : Bool :=
  p.data.isPrefixOf s.data

/-- A scope node of the arena. `prefixStr` and `fallback` are the `ScopeData`
fields from `app.rs`; `ancestors` is Modelled from the spec: "ancestors:
ordered sequence of ScopeNode IDs from root to self" (`app/tree.rs` is not
among the analyzed sources). -/
structure ScopeNode where
  prefixStr : String
  fallback : Option FallbackId
  ancestors : List NodeId
deriving Repr, DecidableEq

/-- An `Endpoint` from `app.rs`: one (methods, handler) registration. The
handler is an opaque boxed value, represented by an identifier. -/
structure Endpoint where
  id : Nat
  uri : String
  methods : List Method
  handler : Nat
deriving Repr, DecidableEq

/-- A `Resource` from `app.rs`: the set of endpoints registered at one URI.
`allowed_methods` is the `IndexMap<Method, usize>` in insertion order;
`allowed_methods_value` is the precomputed `Allow` header value. -/
structure Resource where
  id : Nat
  scope : NodeId
  ancestors : List NodeId
  uri : String
  endpoints : List Endpoint
  allowed_methods : List (Method × Nat)
  allowed_methods_value : String
deriving Repr, DecidableEq

/-- Modelled from the spec: the outcome of `Recognizer::recognize`
(`app/recognizer.rs` is not among the analyzed sources): an exact match
carrying the resource and its captures, a partial match carrying candidate
resource indices, or no match at all. -/
inductive RecognizeOutcome where
  | matched (resource : Resource) (captures : Option Captures)
  | partlyMatched (candidates : List Nat)
  | notMatched
deriving Repr, DecidableEq

/-- The frozen application structure (`AppInner` from `app.rs`): the
recognizer (abstracted as a function, since its internals are external to
the analyzed sources), the resource table backing `Recognizer::get`, and the
scope arena (abstracted as a total function from node ids to nodes). -/
structure AppInner where
  scopes : NodeId → ScopeNode
  resources : List Resource
  recognize : String → RecognizeOutcome

/-- Embedding of `Iterator::position(|(a, b)| a != b)`: the index of the
first pair of distinct components. -/
def positionNe : List (NodeId × NodeId) → Option Nat
  | [] => none
  | p :: t => if p.1 != p.2 then some 0 else (positionNe t).map (· + 1)

/-- One truncation step of `AppInner::infer_scope`'s common-ancestor loop:
cut `anc` at the first position where it disagrees with `other`, or at the
shorter length when no disagreement is found (the `position ... unwrap_or_else`
expression in `app.rs`). -/
def truncCommon (anc other : List NodeId) : List NodeId :=
  let n := match positionNe (anc.zip other) with
    | some n => n
    | none => min anc.length other.length
  anc.take n

/-- The common-ancestor extraction loop of `AppInner::infer_scope`: starting
from `none`, the first candidate installs its own ancestor list (and is
truncated against itself, a no-op), and every further candidate truncates the
accumulator at the first disagreement. -/
def common_ancestors (rs : List Resource) : Option (List NodeId) :=
  rs.foldl
    (fun acc r =>
      match acc with
      | none => some (truncCommon r.ancestors r.ancestors)
      | some anc => some (truncCommon anc r.ancestors))
    none

/-- `AppInner::infer_scope` from `app.rs`: compute the common ancestors of the
candidates, then take the first (oldest) ancestor whose scope prefix starts
with the queried path, else the last ancestor, else the root. -/
def AppInner.infer_scope (inner : AppInner) (path : String) (rs : List Resource) : NodeId :=
  match common_ancestors rs with
  | none => NodeId.root
  | some anc =>
    match anc.find? (fun s => strStartsWith (inner.scopes s).prefixStr path) with
    | some s => s
    | none =>
      match anc.getLast? with
      | some s => s
      | none => NodeId.root

/-- `AppInner::find_fallback` from `app.rs`: return the scope's own fallback
if present, otherwise the first fallback found walking the ancestor list in
reverse (innermost first). -/
def AppInner.find_fallback (inner : AppInner) (start : NodeId) : Option FallbackId :=
  let scope := inner.scopes start
  match scope.fallback with
  | some f => some f
  | none =>
    ((scope.ancestors.reverse.filterMap fun id => (inner.scopes id).fallback)).head?

/-- `Resource::recognize` from `app.rs`: look the method up in
`allowed_methods` and return the endpoint at the stored position. -/
def Resource.recognize (r : Resource) (method : Method) : Option Endpoint :=
  (r.allowed_methods.lookup method).bind fun pos => r.endpoints.get? pos

/-- Well-formedness of a `Resource` established at build time: every position
stored in `allowed_methods` indexes into `endpoints`. -/
abbrev Resource.WF (r : Resource) : Prop :=
  ∀ p ∈ r.allowed_methods, p.2 < r.endpoints.length

/-- The router verdict (`RouterResult` from `app.rs`). The scope is carried
by node id; the source carries the corresponding `&Node<ScopeData>`. -/
inductive RouterResult where
  | foundEndpoint (endpoint : Endpoint) (resource : Resource) (captures : Option Captures)
  | foundResource (resource : Resource) (captures : Option Captures) (scope : NodeId)
  | notFound (resources : List Resource) (captures : Option Captures) (scope : NodeId)
deriving Repr, DecidableEq

/-- `AppInner::route` from `app.rs`. -/
def AppInner.route (inner : AppInner) (path : String) (method : Method) : RouterResult :=
  match inner.recognize path with
  | .notMatched => .notFound [] none NodeId.root
  | .partlyMatched candidates =>
    let resources := candidates.filterMap fun i => inner.resources.get? i
    .notFound resources none (inner.infer_scope path resources)
  | .matched resource captures =>
    match resource.recognize method with
    | some endpoint => .foundEndpoint endpoint resource captures
    | none => .foundResource resource captures resource.scope

/-- A sequential call of `route` through the shared frozen structure: the
Rust signature takes `&self`, so the structure is returned unchanged. -/
def AppInner.route_call (inner : AppInner) (path : String) (method : Method) :
    RouterResult × AppInner :=
  (inner.route path method, inner)

/-- The longest common prefix of two id sequences, written as direct
recursion; used to characterize the truncation loop of `infer_scope`. -/
def lcp2 : List NodeId → List NodeId → List NodeId
  | a :: as, b :: bs => if a = b then a :: lcp2 as bs else []
  | _, _ => []

/-- The scope-inference rule as the specification claim words it: within the
common ancestor sequence, the deepest ancestor whose prefix is a string-prefix
of the queried path; else the shallowest common ancestor; root for no
candidates. Stated for comparison with the source's `AppInner.infer_scope`. -/
def infer_scope_claimed (inner : AppInner) (path : String) (rs : List Resource) : NodeId :=
  match common_ancestors rs with
  | none => NodeId.root
  | some anc =>
    match (anc.filter fun s => strStartsWith path (inner.scopes s).prefixStr).getLast? with
    | some s => s
    | none => anc.headD NodeId.root

/-- Insertion into an insertion-ordered set (`IndexSet::insert`): appends the
element unless it is already present. -/
def dedupAppend (acc : List Method) (m : Method) : List Method :=
  if m ∈ acc then acc else acc ++ [m]

/-- Collecting an iterator into an `IndexSet`: left fold of ordered-set
insertion starting from the empty set. -/
def indexSetOf (l : List Method) : List Method :=
  l.foldl dedupAppend []

/-- The header-value fold of `Resource::update`: method names joined with
`", "` between consecutive elements. -/
def joinMethods (l : List Method) : String :=
  String.intercalate ", " l

/-- `Resource::update` from `app.rs`: recompute `allowed_methods_value` as the
join of the insertion-ordered set collected from the registered method keys
chained with `OPTIONS`. -/
def Resource.update (r : Resource) : Resource :=
  { r with
    allowed_methods_value :=
      joinMethods (indexSetOf (r.allowed_methods.map Prod.fst ++ ["OPTIONS"])) }

/-- An HTTP response (or handler output): status, header list in insertion
order, and the body's declared content length (`body().content_length()`). -/
structure Response where
  status : Nat
  headers : List (String × String)
  contentLength : Option Nat
deriving Repr, DecidableEq

/-- The kind carried by a fallback context (`FallbackKind` in
`app/fallback.rs`): a matched resource with no endpoint for the method, or
no matching resource with the partial-match candidates. -/
inductive FallbackKind where
  | foundResource (resource : Resource)
  | notFound (resources : List Resource)
deriving Repr, DecidableEq

/-- Modelled from the spec: the default fallback (`app/fallback.rs` is not
among the analyzed sources) "emits 405 with `Allow` (for FoundResource) or
404 (for NotFound)"; the `Allow` value is the resource's precomputed
`allowed_methods_value`. -/
def default_fallback : FallbackKind → Response
  | .foundResource r => ⟨405, [("Allow", r.allowed_methods_value)], none⟩
  | .notFound _ => ⟨404, [], none⟩

/-- The fallback-dispatch step of `AppFuture::process_recognize`
(`app/service.rs`): call the fallback found by `find_fallback`, or the
default one when no scope on the ancestor path carries a fallback. The
behaviour of user-installed fallbacks is opaque, abstracted by `call`. -/
def dispatch_fallback (inner : AppInner) (call : FallbackId → FallbackKind → Response)
    (kind : FallbackKind) (scope : NodeId) : Response :=
  match inner.find_fallback scope with
  | some f => call f kind
  | none => default_fallback kind

/-- An HTTP request, reduced to the parts the routing core reads. -/
structure Request where
  path : String
  method : Method
deriving Repr, DecidableEq

/-- Modelled from the spec: an error value (`crate::error::Error`;
`error.rs` is not among the analyzed sources) carrying its HTTP status
classification and a message. -/
structure Err where
  status : Nat
  msg : String
deriving Repr, DecidableEq

/-- Modelled from the spec: `crate::error::internal_server_error` constructs
an ordinary error classified with status 500 (`error.rs` is not among the
analyzed sources; §7 classifies internal failures as 500). -/
def internal_server_error (msg : String) : Err :=
  ⟨500, msg⟩

/-- `missing_local_value` from `extractor/local.rs`. -/
def missing_local_value : Err :=
  internal_server_error "missing local value"

/-- Modelled from the spec: error-to-response conversion
(`Error::into_response`; `error.rs` is not among the analyzed sources) uses
the error's status classification and the original request. -/
def Err.into_response (e : Err) (_req : Request) : Response :=
  ⟨e.status, [], none⟩

/-- The outcome of running an extractor on a request: a value, an ordinary
recoverable error (propagated and converted to a response), or a fatal
fault (panic / task abort, never converted). -/
inductive ExtractOutcome (α : Type) where
  | ok (value : α)
  | err (e : Err)
  | fault
deriving Repr, DecidableEq

/-- `extractor::local::remove` from `extractor/local.rs`: remove the entry
for `key` from the request-local storage, or fail with
`missing_local_value`. The storage is an association list keyed by the
local key's identity. -/
def local_remove {α : Type} (locals : List (Nat × α)) (key : Nat) : ExtractOutcome α :=
  match locals.lookup key with
  | some v => .ok v
  | none => .err missing_local_value

/-- `extractor::local::clone` from `extractor/local.rs`: read (and clone) the
entry for `key`, or fail with `missing_local_value`. -/
def local_clone {α : Type} (locals : List (Nat × α)) (key : Nat) : ExtractOutcome α :=
  match locals.lookup key with
  | some v => .ok v
  | none => .err missing_local_value

/-- An identifier standing for an opaque in-flight handler continuation
(`Box<HandleFn>`). -/
abbrev HandleFn := Nat

/-- `HandleInner`: the immediate result of `process_recognize` — either a
ready terminal result or a continuation to poll. -/
inductive HandleOutcome where
  | ready (result : Except Err Response)
  | pollFn (k : HandleFn)

/-- The result of polling an in-flight continuation once. -/
inductive PollOutcome where
  | notReady
  | ready (result : Except Err Response)

/-- The observable outcome of one `poll` of `AppFuture`: not ready, a final
response, or a panic (the fatal programming-error fault). -/
inductive PollVerdict where
  | notReady
  | response (resp : Response)
  | panicked (msg : String)
deriving Repr, DecidableEq

/-- `AppFutureState` from `app/service.rs`. -/
inductive AppFutureState where
  | init
  | inFlight (k : HandleFn)
  | done
deriving Repr, DecidableEq

/-- The per-request state of `AppFuture` (`app/service.rs`): the request, the
lazily created cookie jar (embedded as the list of its delta cookies, already
encoded — cookie encoding is external to the analyzed sources), the
accumulated supplemental response headers, and the state machine state. -/
structure AppFuture where
  request : Request
  cookie_jar : Option (List String)
  response_headers : Option (List (String × String))
  state : AppFutureState
deriving Repr, DecidableEq

/-- `HeaderMap::append`: add a (name, value) pair at the end, keeping
existing entries. Header names are stored lowercased by the `http` crate;
the embedding uses fixed lowercase names. -/
def append_header (resp : Response) (k v : String) : Response :=
  { resp with headers := resp.headers ++ [(k, v)] }

/-- Whether a header with name `k` is present. -/
def has_header (headers : List (String × String)) (k : String) : Bool :=
  headers.any fun p => p.1 == k

/-- `AppFuture::process_before_reply` from `app/service.rs`: append a
`Set-Cookie` header per cookie-jar delta entry, drain the accumulated
supplemental headers into the response, then insert `Content-Length` from the
body's declared length only when that header is absent. -/
def AppFuture.process_before_reply (fut : AppFuture) (output : Response) :
    Response × AppFuture :=
  let output := match fut.cookie_jar with
    | some jar => jar.foldl (fun o c => append_header o "set-cookie" c) output
    | none => output
  let pair := match fut.response_headers with
    | some hs => (hs, { fut with response_headers := none })
    | none => ([], fut)
  let output := pair.1.foldl (fun o kv => append_header o kv.1 kv.2) output
  let output := match output.contentLength with
    | some len =>
      if has_header output.headers "content-length" then output
      else append_header output "content-length" (toString len)
    | none => output
  (output, pair.2)

/-- The tail of `AppFuture::poll` after the loop breaks with a terminal
result: mark the state `Done`, convert an error via `into_response` with the
original request, and run `process_before_reply` on the output. -/
def AppFuture.finish (fut : AppFuture) (result : Except Err Response) :
    PollVerdict × AppFuture :=
  let output := match result with
    | .ok o => o
    | .error e => e.into_response fut.request
  let pair := fut.process_before_reply output
  (.response pair.1, { pair.2 with state := .done })

/-- `impl Future for AppFuture` (`app/service.rs`): one call of `poll`. The
environment supplies the outcome of `process_recognize` (`recog`, since
handlers and fallbacks are opaque) and of polling an in-flight continuation
(`step`). In `Init`, a continuation produced by recognition is polled
immediately within the same call (the `loop`); `NotReady` returns without
entering `Done`; a terminal result goes through `finish`; polling in `Done`
panics. -/
def AppFuture.poll (fut : AppFuture) (recog : HandleOutcome)
    (step : HandleFn → PollOutcome) : PollVerdict × AppFuture :=
  match fut.state with
  | .done => (.panicked "the future has already polled.", fut)
  | .init =>
    match recog with
    | .ready result => fut.finish result
    | .pollFn k =>
      match step k with
      | .notReady => (.notReady, { fut with state := .inFlight k })
      | .ready result => fut.finish result
  | .inFlight k =>
    match step k with
    | .notReady => (.notReady, fut)
    | .ready result => fut.finish result

/-- `util::Chain`: a pair of modifiers, the left applied first. -/
structure Chain (I O : Type) where
  left : I
  right : O

/-- `impl ModifyHandler<H> for ()` (`handler.rs`): the unit modifier returns
the handler unchanged. Modifiers are embedded by their action on handlers. -/
def unitModify {H : Type} : H → H := id

/-- `impl ModifyHandler<H> for Chain<I, O>` (`handler.rs`):
`self.right.modify(self.left.modify(input))`. -/
def Chain.modify {A B C : Type} (self : Chain (A → B) (B → C)) : A → C :=
  fun input => self.right (self.left input)

/-- The longest common prefix of the ancestor sequences of the candidate set
`r :: rest`, written as a fold of binary longest-common-prefix steps; used to
characterize the truncation loop of `common_ancestors`. -/
def commonAnc (r : Resource) (rest : List Resource) : List NodeId :=
  rest.foldl (fun a r2 => lcp2 a r2.ancestors) r.ancestors

/-- The headers of a response after the cookie-delta and supplemental-header
merges of `process_before_reply`, before the `Content-Length` step. -/
def mergedHeaders (fut : AppFuture) (out : Response) : List (String × String) :=
  out.headers ++ (fut.cookie_jar.getD []).map (fun c => ("set-cookie", c)) ++
    fut.response_headers.getD []

/-- A concrete scope arena used as witness material: a root scope `/`, a
child scope `/a` (node 1), and a grandchild scope `/a/b` (node 2) carrying
fallback 7. -/
def exScopes : NodeId → ScopeNode
  | 1 => ⟨"/a", none, [0, 1]⟩
  | 2 => ⟨"/a/b", some 7, [0, 1, 2]⟩
  | _ => ⟨"/", none, [0]⟩

/-- A concrete resource at `/a/b/c` inside the `/a/b` scope, answering `GET`. -/
def exRes : Resource :=
  ⟨0, 2, [0, 1, 2], "/a/b/c", [⟨0, "/a/b/c", ["GET"], 0⟩], [("GET", 0)], "GET, OPTIONS"⟩

/-- A concrete recognizer: exact match on `/a/b/c`, partial match on `/a/c`,
nothing else. -/
def exRecognize (path : String) : RecognizeOutcome :=
  if path = "/a/b/c" then .matched exRes (some [(0, 0)])
  else if path = "/a/c" then .partlyMatched [0]
  else .notMatched

/-- The concrete frozen application assembled from the pieces above. -/
def exApp : AppInner :=
  ⟨exScopes, [exRes], exRecognize⟩

/-- Claim C4: for every path the recognizer reports as sharing no prefix with
any registered pattern (`NotMatched`), and every method, `route` returns
`NotFound` with an empty candidate-resource list and the root scope. -/
theorem route_not_matched_is_root_not_found (inner : AppInner) (path : String)
    (method : Method) (h : inner.recognize path = .notMatched) :
    inner.route path method = .notFound [] none NodeId.root := by
  unfold AppInner.route
  rw [h]

/-- Witness for C4 at a concrete application and path. -/
theorem route_not_matched_is_root_not_found_witness :
    AppInner.route exApp "/zzz" "GET" = .notFound [] none NodeId.root :=
  route_not_matched_is_root_not_found exApp "/zzz" "GET" (by decide)

/-- Claim C9: `route` is pure and read-only — a call returns the frozen
structure unchanged (in particular the recognizer, the scope tree and the
resource table), and a second call with the same path and method returns the
same verdict. -/
theorem route_pure_read_only (inner : AppInner) (path : String) (method : Method) :
    (inner.route_call path method).2 = inner ∧
    ((inner.route_call path method).2.route_call path method).1 =
      (inner.route_call path method).1 ∧
    (inner.route_call path method).2.scopes = inner.scopes ∧
    (inner.route_call path method).2.resources = inner.resources ∧
    (inner.route_call path method).2.recognize = inner.recognize :=
  ⟨rfl, rfl, rfl, rfl, rfl⟩

/-- Claim C10: handler-modifier composition is a monoid action on handlers —
the unit modifier leaves every handler unchanged, `Chain` applies the left
modifier first and wraps the result with the right one, and chaining is
associative with the unit modifier neutral on either side. -/
theorem modify_monoid_action {A B C D H : Type} (l : A → B) (m : B → C) (r : C → D)
    (h : H) (a : A) (f : A → B) (g : A → A) :
    (unitModify h = h) ∧
    ((Chain.mk l m).modify a = m (l a)) ∧
    ((Chain.mk (Chain.mk l m).modify r).modify a =
      (Chain.mk l (Chain.mk m r).modify).modify a) ∧
    ((Chain.mk (unitModify g) f).modify a = f (g a)) ∧
    ((Chain.mk f (unitModify : B → B)).modify a = f a) :=
  ⟨rfl, rfl, rfl, rfl, rfl⟩

/-- Claim C6, counterexample: at a concrete request-local storage missing the
queried key, the extractor yields an ordinary error of status 500 — it is not
a fault, and the error is converted to an HTTP response by the error-response
conversion. -/
theorem missing_local_is_ordinary_error_cex :
    local_remove ([] : List (Nat × Nat)) 0 = .err (internal_server_error "missing local value") ∧
    local_remove ([] : List (Nat × Nat)) 0 ≠ ExtractOutcome.fault ∧
    (Err.into_response missing_local_value ⟨"/", "GET"⟩).status = 500 :=
  ⟨rfl, by decide, rfl⟩

/-- Claim C6, amended: a missing request-local value surfaces as the ordinary
error `missing_local_value` of status 500 (for both the removing and the
cloning extractor), which is propagated like any extractor error and
converted to a response — never as a fault. -/
theorem missing_local_value_is_recoverable {α : Type} (locals : List (Nat × α))
    (key : Nat) (h : locals.lookup key = none) :
    local_remove locals key = .err missing_local_value ∧
    local_clone locals key = .err missing_local_value ∧
    missing_local_value.status = 500 ∧
    local_remove locals key ≠ .fault := by
  unfold local_remove local_clone
  rw [h]
  refine ⟨rfl, rfl, rfl, fun hc => ExtractOutcome.noConfusion hc⟩

/-- Witness for the amended C6 at a concrete storage and key. -/
theorem missing_local_value_is_recoverable_witness :
    local_remove ([(1, 42)] : List (Nat × Nat)) 0 = .err missing_local_value :=
  (missing_local_value_is_recoverable [(1, 42)] 0 (by decide)).1

/-- Claim C7: a poll producing a terminal response leaves the state machine
in `Done`; polling in `Done` panics (returns neither a value nor not-ready);
and a poll returning not-ready does not enter `Done`. -/
theorem poll_done_is_fatal (fut : AppFuture) (recog : HandleOutcome)
    (step : HandleFn → PollOutcome) :
    (fut.state = .done →
      fut.poll recog step = (.panicked "the future has already polled.", fut)) ∧
    (∀ resp, (fut.poll recog step).1 = .response resp →
      (fut.poll recog step).2.state = .done) ∧
    ((fut.poll recog step).1 = .notReady → (fut.poll recog step).2.state ≠ .done) := by
  obtain ⟨req, jar, hdrs, st⟩ := fut
  refine ⟨?_, ?_, ?_⟩
  · intro hd
    cases st with
    | done => rfl
    | init => simp at hd
    | inFlight k => simp at hd
  · intro resp hr
    cases st with
    | done => simp [AppFuture.poll] at hr
    | init =>
      cases recog with
      | ready result => simp [AppFuture.poll, AppFuture.finish]
      | pollFn k =>
        cases hk : step k with
        | notReady => simp [AppFuture.poll, hk] at hr
        | ready result => simp [AppFuture.poll, hk, AppFuture.finish]
    | inFlight k =>
      cases hk : step k with
      | notReady => simp [AppFuture.poll, hk] at hr
      | ready result => simp [AppFuture.poll, hk, AppFuture.finish]
  · intro hn
    cases st with
    | done => simp [AppFuture.poll] at hn
    | init =>
      cases recog with
      | ready result => simp [AppFuture.poll, AppFuture.finish] at hn
      | pollFn k =>
        cases hk : step k with
        | notReady => simp [AppFuture.poll, hk]
        | ready result => simp [AppFuture.poll, hk, AppFuture.finish] at hn
    | inFlight k =>
      cases hk : step k with
      | notReady => simp [AppFuture.poll, hk]
      | ready result => simp [AppFuture.poll, hk, AppFuture.finish] at hn

/-- Witness for C7: polling a concrete completed future panics. -/
theorem poll_done_is_fatal_witness :
    AppFuture.poll ⟨⟨"/p", "GET"⟩, none, none, .done⟩ (.pollFn 0) (fun _ => .notReady) =
      (.panicked "the future has already polled.", ⟨⟨"/p", "GET"⟩, none, none, .done⟩) :=
  (poll_done_is_fatal ⟨⟨"/p", "GET"⟩, none, none, .done⟩ (.pollFn 0) (fun _ => .notReady)).1 rfl

/-- Claim C1, counterexample: on the concrete application `exApp`, for the
queried path `/a/c` with the single candidate `exRes`, the source's
`infer_scope` returns the deepest common ancestor (node 2, the `/a/b` scope)
while the rule stated by the claim returns node 1 (the deepest ancestor whose
prefix `/a` is a string-prefix of `/a/c`); the two disagree. -/
theorem infer_scope_claim_cex :
    AppInner.infer_scope exApp "/a/c" [exRes] = 2 ∧
    infer_scope_claimed exApp "/a/c" [exRes] = 1 ∧
    AppInner.infer_scope exApp "/a/c" [exRes] ≠ infer_scope_claimed exApp "/a/c" [exRes] :=
  ⟨by decide, by decide, by decide⟩

/-- A successful association-list lookup locates a pair of the list. -/
theorem lookup_mem {α : Type} {l : List (Method × α)} {k : Method} {v : α}
    (h : l.lookup k = some v) : (k, v) ∈ l := by
  induction l with
  | nil => simp [List.lookup] at h
  | cons p t ih =>
    obtain ⟨a, b⟩ := p
    rw [List.lookup] at h
    cases hk : (k == a) with
    | true =>
      rw [hk] at h
      simp at h
      subst h
      have hka : k = a := by simpa using hk
      subst hka
      exact List.mem_cons_self _ _
    | false =>
      rw [hk] at h
      exact List.mem_cons_of_mem _ (ih h)

/-- Claim C3: when the recognizer reports an exact match to a resource, a
method with a registered endpoint routes to `FoundEndpoint` with that exact
endpoint, the resource and the captures; any other method routes to
`FoundResource` with the same resource, the captures, and the resource's
owning scope. Under the build-time well-formedness of the resource, every
registered method does resolve to an endpoint. -/
theorem route_matched_endpoint_or_resource (inner : AppInner) (path : String)
    (method : Method) (r : Resource) (c : Option Captures)
    (hrec : inner.recognize path = .matched r c) (hwf : r.WF) :
    ((r.allowed_methods.lookup method).isSome → ∃ e, r.recognize method = some e) ∧
    (∀ e, r.recognize method = some e →
      inner.route path method = .foundEndpoint e r c) ∧
    (r.recognize method = none →
      inner.route path method = .foundResource r c r.scope) := by
  refine ⟨?_, ?_, ?_⟩
  · intro hs
    obtain ⟨pos, hpos⟩ := Option.isSome_iff_exists.mp hs
    have hlt : pos < r.endpoints.length := hwf _ (lookup_mem hpos)
    refine ⟨r.endpoints.get ⟨pos, hlt⟩, ?_⟩
    rw [Resource.recognize, hpos]
    simp [List.get?_eq_get hlt]
  · intro e he
    simp only [AppInner.route, hrec, he]
  · intro he
    simp only [AppInner.route, hrec, he]

/-- Witness for C3 at the concrete application: `GET /a/b/c` resolves to the
registered endpoint. -/
theorem route_matched_endpoint_or_resource_witness :
    AppInner.route exApp "/a/b/c" "GET" =
      .foundEndpoint ⟨0, "/a/b/c", ["GET"], 0⟩ exRes (some [(0, 0)]) :=
  (route_matched_endpoint_or_resource exApp "/a/b/c" "GET" exRes (some [(0, 0)])
      (by decide) (by decide)).2.1 ⟨0, "/a/b/c", ["GET"], 0⟩ (by decide)

/-- Ordered-set insertion of all elements of `l` on top of `acc` is plain
concatenation when the combined list has no duplicates. -/
theorem foldl_dedupAppend_of_nodup (l : List Method) :
    ∀ acc : List Method, (acc ++ l).Nodup → l.foldl dedupAppend acc = acc ++ l := by
  induction l with
  | nil => intro acc _; simp
  | cons m t ih =>
    intro acc h
    have hm : m ∉ acc := fun hmem =>
      (List.nodup_append.mp h).2.2 hmem (List.mem_cons_self m t)
    have hstep : dedupAppend acc m = acc ++ [m] := by
      unfold dedupAppend
      rw [if_neg hm]
    have hassoc : acc ++ [m] ++ t = acc ++ m :: t := by simp
    rw [List.foldl_cons, hstep, ih (acc ++ [m]) (hassoc ▸ h), hassoc]

/-- Claim C2: the precomputed `allowed_methods_value` is the `", "`-join of
the registered methods in registration order followed by `OPTIONS`, with
`OPTIONS` not repeated when itself registered; `update` does not change the
registered methods; and the method-not-allowed default emits exactly this
value as the `Allow` header. -/
theorem allowed_methods_value_spec (r : Resource)
    (h : (r.allowed_methods.map Prod.fst).Nodup) :
    ((r.update).allowed_methods_value =
      (if "OPTIONS" ∈ r.allowed_methods.map Prod.fst
       then String.intercalate ", " (r.allowed_methods.map Prod.fst)
       else String.intercalate ", " (r.allowed_methods.map Prod.fst ++ ["OPTIONS"]))) ∧
    ((r.update).allowed_methods = r.allowed_methods) ∧
    (default_fallback (.foundResource r.update) =
      ⟨405, [("Allow", (r.update).allowed_methods_value)], none⟩) := by
  refine ⟨?_, rfl, rfl⟩
  show joinMethods (indexSetOf (r.allowed_methods.map Prod.fst ++ ["OPTIONS"])) = _
  have hbase : indexSetOf (r.allowed_methods.map Prod.fst) = r.allowed_methods.map Prod.fst :=
    foldl_dedupAppend_of_nodup _ [] (by simpa using h)
  have hstep : indexSetOf (r.allowed_methods.map Prod.fst ++ ["OPTIONS"]) =
      dedupAppend (r.allowed_methods.map Prod.fst) "OPTIONS" := by
    unfold indexSetOf
    rw [List.foldl_append]
    unfold indexSetOf at hbase
    rw [hbase]
    rfl
  rw [hstep]
  unfold dedupAppend joinMethods
  split
  · rfl
  · rfl

/-- Witness for C2 at the concrete resource registering only `GET`. -/
theorem allowed_methods_value_spec_witness :
    (Resource.update exRes).allowed_methods_value = "GET, OPTIONS" := by
  have h := (allowed_methods_value_spec exRes (by decide)).1
  rw [h, if_neg (by decide)]
  decide

/-- Claim C5: `find_fallback` returns the first fallback met walking the
chain that starts at the queried scope and continues through its ancestors
innermost-first; it returns `none` exactly when no scope on that chain
carries a fallback, in which case fallback dispatch substitutes the default
fallback — 405 with the precomputed `Allow` value for a matched resource,
404 for not-found. -/
theorem find_fallback_spec (inner : AppInner) (start : NodeId) :
    (inner.find_fallback start =
      ((start :: (inner.scopes start).ancestors.reverse).filterMap
        fun id => (inner.scopes id).fallback).head?) ∧
    (inner.find_fallback start = none ↔
      ∀ id ∈ start :: (inner.scopes start).ancestors.reverse,
        (inner.scopes id).fallback = none) ∧
    (∀ call kind, inner.find_fallback start = none →
      dispatch_fallback inner call kind start = default_fallback kind) ∧
    (∀ r, default_fallback (.foundResource r) =
      ⟨405, [("Allow", r.allowed_methods_value)], none⟩) ∧
    (∀ rs, default_fallback (.notFound rs) = ⟨404, [], none⟩) := by
  have hmain : inner.find_fallback start =
      ((start :: (inner.scopes start).ancestors.reverse).filterMap
        fun id => (inner.scopes id).fallback).head? := by
    unfold AppInner.find_fallback
    cases hf : (inner.scopes start).fallback with
    | some f => simp [List.filterMap_cons, hf]
    | none => simp [List.filterMap_cons, hf]
  refine ⟨hmain, ?_, ?_, fun _ => rfl, fun _ => rfl⟩
  · rw [hmain]
    exact List.head?_eq_none_iff.trans List.filterMap_eq_nil_iff
  · intro call kind hn
    unfold dispatch_fallback
    rw [hn]

/-- Witness for C5: on the concrete application, scope 1 carries no fallback
anywhere on its chain, so dispatch substitutes the default fallback. -/
theorem find_fallback_spec_witness :
    dispatch_fallback exApp (fun _ _ => ⟨200, [], none⟩) (.notFound []) 1 =
      default_fallback (.notFound []) :=
  ((find_fallback_spec exApp 1).2.2.1) (fun _ _ => ⟨200, [], none⟩) (.notFound [])
    (by decide)

/-- Appending headers one by one with `append_header` concatenates them onto
the existing header list and changes nothing else. -/
theorem foldl_append_header (l : List (String × String)) :
    ∀ resp : Response,
      l.foldl (fun o kv => append_header o kv.1 kv.2) resp =
        { resp with headers := resp.headers ++ l } := by
  induction l with
  | nil => intro resp; simp
  | cons kv t ih =>
    intro resp
    rw [List.foldl_cons, ih]
    simp [append_header]

/-- Appending one `set-cookie` header per delta cookie concatenates the
corresponding pairs onto the header list. -/
theorem foldl_cookie_header (jar : List String) :
    ∀ resp : Response,
      jar.foldl (fun o c => append_header o "set-cookie" c) resp =
        { resp with headers := resp.headers ++ jar.map (fun c => ("set-cookie", c)) } := by
  induction jar with
  | nil => intro resp; simp
  | cons c t ih =>
    intro resp
    rw [List.foldl_cons, ih]
    simp [append_header]

/-- Claim C8: at a terminal result, an error is converted to a response from
its classification and the original request, a success value is finalized
directly; finalization appends one `Set-Cookie` header per cookie-jar delta,
merges the accumulated supplemental headers (draining the accumulator), and
then sets `Content-Length` exactly when the body declares a known length and
no such header is present — an existing `Content-Length` is left unchanged.
Status and body length of the handler output are preserved. -/
theorem response_finalization (fut : AppFuture) (out : Response)
    (result : Except Err Response) :
    ((fut.finish result).1 =
      .response (fut.process_before_reply (match result with
        | .ok o => o
        | .error e => e.into_response fut.request)).1) ∧
    ((fut.process_before_reply out).1.headers =
      mergedHeaders fut out ++
        (match out.contentLength with
          | some len =>
            if has_header (mergedHeaders fut out) "content-length" then []
            else [("content-length", toString len)]
          | none => [])) ∧
    ((fut.process_before_reply out).1.status = out.status) ∧
    ((fut.process_before_reply out).1.contentLength = out.contentLength) ∧
    ((fut.process_before_reply out).2.response_headers = none) := by
  obtain ⟨req, jar, hdrs, st⟩ := fut
  have hpre : ∀ o : Response,
      (AppFuture.process_before_reply ⟨req, jar, hdrs, st⟩ o).1 =
        { o with headers := mergedHeaders ⟨req, jar, hdrs, st⟩ o ++
            (match o.contentLength with
              | some len =>
                if has_header (mergedHeaders ⟨req, jar, hdrs, st⟩ o) "content-length" then []
                else [("content-length", toString len)]
              | none => []) } := by
    intro o
    unfold AppFuture.process_before_reply mergedHeaders
    cases jar with
    | none =>
      cases hdrs with
      | none =>
        simp only [foldl_append_header, foldl_cookie_header, Option.getD_none, List.map_nil,
          List.append_nil]
        cases hcl : o.contentLength with
        | none => simp [hcl]
        | some len =>
          simp only [hcl]
          split
          · simp_all [append_header]
          · simp_all [append_header]
      | some hs =>
        simp only [foldl_append_header, foldl_cookie_header, Option.getD_none,
          Option.getD_some, List.map_nil, List.append_nil]
        cases hcl : o.contentLength with
        | none => simp [hcl]
        | some len =>
          simp only [hcl]
          split
          · simp_all [append_header]
          · simp_all [append_header]
    | some ja =>
      cases hdrs with
      | none =>
        simp only [foldl_append_header, foldl_cookie_header, Option.getD_none,
          Option.getD_some, List.append_nil]
        cases hcl : o.contentLength with
        | none => simp [hcl]
        | some len =>
          simp only [hcl]
          split
          · simp_all [append_header]
          · simp_all [append_header]
      | some hs =>
        simp only [foldl_append_header, foldl_cookie_header, Option.getD_some]
        cases hcl : o.contentLength with
        | none => simp [hcl]
        | some len =>
          simp only [hcl]
          split
          · simp_all [append_header]
          · simp_all [append_header]
  have hdrain : ∀ o : Response,
      (AppFuture.process_before_reply ⟨req, jar, hdrs, st⟩ o).2.response_headers = none := by
    intro o
    unfold AppFuture.process_before_reply
    cases hdrs <;> rfl
  refine ⟨?_, ?_, ?_, ?_, hdrain out⟩
  · unfold AppFuture.finish
    cases result <;> rfl
  · rw [hpre out]
  · rw [hpre out]
  · rw [hpre out]

/-- Witness for C8 on concrete data: a jar with one delta cookie, one
supplemental header, and a body of known length 3 with no pre-existing
`Content-Length` header. -/
theorem response_finalization_witness :
    (AppFuture.process_before_reply
        ⟨⟨"/w", "GET"⟩, some ["sid=1"], some [("x-extra", "1")], .init⟩
        ⟨200, [("a", "b")], some 3⟩).1.headers =
      [("a", "b"), ("set-cookie", "sid=1"), ("x-extra", "1"), ("content-length", "3")] := by
  have h := (response_finalization
      ⟨⟨"/w", "GET"⟩, some ["sid=1"], some [("x-extra", "1")], .init⟩
      ⟨200, [("a", "b")], some 3⟩ (.ok ⟨200, [], none⟩)).2.1
  rw [h]
  decide

/-- `lcp2` is idempotent on equal arguments. -/
theorem lcp2_self (a : List NodeId) : lcp2 a a = a := by
  induction a with
  | nil => rfl
  | cons x as ih => rw [lcp2, if_pos rfl, ih]

/-- One cons step of the position-and-truncate computation. -/
theorem truncCommon_cons (x y : NodeId) (as bs : List NodeId) :
    truncCommon (x :: as) (y :: bs) =
      if x = y then x :: truncCommon as bs else [] := by
  by_cases hxy : x = y
  · rw [if_pos hxy]
    subst hxy
    unfold truncCommon
    have hz : (x :: as).zip (x :: bs) = (x, x) :: as.zip bs := rfl
    rw [hz]
    have h2 : positionNe ((x, x) :: as.zip bs) = (positionNe (as.zip bs)).map (· + 1) := by
      simp [positionNe]
    rw [h2]
    cases hp : positionNe (as.zip bs) with
    | some m => rfl
    | none => simp [Nat.succ_min_succ, List.take_succ_cons]
  · rw [if_neg hxy]
    unfold truncCommon
    have hz : (x :: as).zip (y :: bs) = (x, y) :: as.zip bs := rfl
    rw [hz]
    have h2 : positionNe ((x, y) :: as.zip bs) = some 0 := by
      simp [positionNe, hxy]
    rw [h2]
    rfl

/-- The position-and-truncate step of the source equals the recursive
longest-common-prefix. -/
theorem truncCommon_eq_lcp2 (a : List NodeId) : ∀ b, truncCommon a b = lcp2 a b := by
  induction a with
  | nil => intro b; cases b <;> simp [truncCommon, positionNe, lcp2]
  | cons x as ih =>
    intro b
    cases b with
    | nil => simp [truncCommon, positionNe, lcp2]
    | cons y bs =>
      rw [truncCommon_cons, lcp2]
      by_cases hxy : x = y
      · rw [if_pos hxy, if_pos hxy, ih bs]
      · rw [if_neg hxy, if_neg hxy]

/-- The longest common prefix is a prefix of its left argument. -/
theorem lcp2_prefix_left (a : List NodeId) : ∀ b, lcp2 a b <+: a := by
  induction a with
  | nil => intro b; cases b <;> exact ⟨_, rfl⟩
  | cons x as ih =>
    intro b
    cases b with
    | nil => exact ⟨_, rfl⟩
    | cons y bs =>
      rw [lcp2]
      split
      · obtain ⟨t, ht⟩ := ih bs
        exact ⟨t, by rw [List.cons_append, ht]⟩
      · exact ⟨_, rfl⟩

/-- The longest common prefix is a prefix of its right argument. -/
theorem lcp2_prefix_right (a : List NodeId) : ∀ b, lcp2 a b <+: b := by
  induction a with
  | nil => intro b; cases b <;> exact ⟨_, rfl⟩
  | cons x as ih =>
    intro b
    cases b with
    | nil => exact ⟨_, rfl⟩
    | cons y bs =>
      rw [lcp2]
      split
      · next hxy =>
        subst hxy
        obtain ⟨t, ht⟩ := ih bs
        exact ⟨t, by rw [List.cons_append, ht]⟩
      · exact ⟨_, rfl⟩

/-- Any common prefix of both arguments is a prefix of their longest common
prefix. -/
theorem lcp2_greatest (l : List NodeId) :
    ∀ a b, l <+: a → l <+: b → l <+: lcp2 a b := by
  induction l with
  | nil => intro a b _ _; exact ⟨_, rfl⟩
  | cons x t ih =>
    intro a b ha hb
    obtain ⟨u, hu⟩ := ha
    obtain ⟨v, hv⟩ := hb
    subst hu
    subst hv
    rw [List.cons_append, List.cons_append, lcp2, if_pos rfl]
    obtain ⟨w, hw⟩ := ih (t ++ u) (t ++ v) ⟨u, rfl⟩ ⟨v, rfl⟩
    exact ⟨w, by rw [List.cons_append, hw]⟩

/-- The longest-common-prefix fold only shrinks its accumulator. -/
theorem foldl_lcp2_prefix_acc (rest : List Resource) :
    ∀ anc : List NodeId, rest.foldl (fun a r2 => lcp2 a r2.ancestors) anc <+: anc := by
  induction rest with
  | nil => intro anc; exact ⟨[], List.append_nil _⟩
  | cons r rest ih =>
    intro anc
    rw [List.foldl_cons]
    exact (ih (lcp2 anc r.ancestors)).trans (lcp2_prefix_left anc r.ancestors)

/-- The longest-common-prefix fold result is a prefix of every folded
candidate's ancestor list. -/
theorem foldl_lcp2_prefix_mem (rest : List Resource) :
    ∀ anc : List NodeId, ∀ r2 ∈ rest,
      rest.foldl (fun a r3 => lcp2 a r3.ancestors) anc <+: r2.ancestors := by
  induction rest with
  | nil => intro anc r2 h; cases h
  | cons r rest ih =>
    intro anc r2 h
    rw [List.foldl_cons]
    rcases List.mem_cons.mp h with rfl | hmem
    · exact (foldl_lcp2_prefix_acc rest (lcp2 anc r2.ancestors)).trans
        (lcp2_prefix_right anc r2.ancestors)
    · exact ih _ r2 hmem

/-- Any common prefix of the accumulator and of every folded candidate's
ancestor list is a prefix of the longest-common-prefix fold result. -/
theorem foldl_lcp2_greatest (rest : List Resource) :
    ∀ (anc l : List NodeId), l <+: anc → (∀ r2 ∈ rest, l <+: r2.ancestors) →
      l <+: rest.foldl (fun a r3 => lcp2 a r3.ancestors) anc := by
  induction rest with
  | nil => intro anc l h _; simpa using h
  | cons r rest ih =>
    intro anc l hanc hall
    rw [List.foldl_cons]
    exact ih _ l
      (lcp2_greatest l anc r.ancestors hanc (hall r (List.mem_cons_self r rest)))
      (fun r2 h2 => hall r2 (List.mem_cons_of_mem r h2))

/-- Unfolding the option-valued accumulator loop of `common_ancestors` into
the plain longest-common-prefix fold. -/
theorem common_ancestors_go (rest : List Resource) :
    ∀ anc : List NodeId,
      rest.foldl
        (fun acc r2 =>
          match acc with
          | none => some (truncCommon r2.ancestors r2.ancestors)
          | some a => some (truncCommon a r2.ancestors))
        (some anc) =
      some (rest.foldl (fun a r2 => lcp2 a r2.ancestors) anc) := by
  induction rest with
  | nil => intro anc; rfl
  | cons r rest ih =>
    intro anc
    rw [List.foldl_cons, List.foldl_cons]
    show rest.foldl _ (some (truncCommon anc r.ancestors)) = _
    rw [truncCommon_eq_lcp2]
    exact ih (lcp2 anc r.ancestors)

/-- On a non-empty candidate list the truncation loop of `common_ancestors`
computes exactly the longest common prefix of the ancestor lists. -/
theorem common_ancestors_cons (r : Resource) (rest : List Resource) :
    common_ancestors (r :: rest) = some (commonAnc r rest) := by
  unfold common_ancestors commonAnc
  rw [List.foldl_cons]
  show rest.foldl _ (some (truncCommon r.ancestors r.ancestors)) = _
  rw [truncCommon_eq_lcp2, lcp2_self]
  exact common_ancestors_go rest r.ancestors

/-- Claim C1, amended: for a non-empty candidate set, `infer_scope` computes
the longest common prefix of the candidates' ancestor sequences (proved
against an independent recursive definition, with the prefix and maximality
properties), and then returns the oldest (closest-to-root) common ancestor
whose scope prefix begins with the queried path — i.e. the path is a
string-prefix of the ancestor's prefix — falling back to the deepest common
ancestor when there is none; for an empty candidate set it returns the root
scope. -/
theorem infer_scope_oldest_or_deepest (inner : AppInner) (path : String)
    (rs : List Resource) :
    (rs = [] → inner.infer_scope path rs = NodeId.root) ∧
    (∀ r rest, rs = r :: rest →
      common_ancestors rs = some (commonAnc r rest) ∧
      (∀ r2 ∈ rs, commonAnc r rest <+: r2.ancestors) ∧
      (∀ l, (∀ r2 ∈ rs, l <+: r2.ancestors) → l <+: commonAnc r rest) ∧
      (∀ s, (commonAnc r rest).find?
          (fun s2 => strStartsWith (inner.scopes s2).prefixStr path) = some s →
        s ∈ commonAnc r rest ∧
          strStartsWith (inner.scopes s).prefixStr path = true) ∧
      inner.infer_scope path rs =
        (match (commonAnc r rest).find?
            (fun s2 => strStartsWith (inner.scopes s2).prefixStr path) with
         | some s => s
         | none => (commonAnc r rest).getLastD NodeId.root)) := by
  constructor
  · intro h
    subst h
    rfl
  · intro r rest h
    subst h
    refine ⟨common_ancestors_cons r rest, ?_, ?_, ?_, ?_⟩
    · intro r2 h2
      rcases List.mem_cons.mp h2 with rfl | hmem
      · exact foldl_lcp2_prefix_acc rest r2.ancestors
      · exact foldl_lcp2_prefix_mem rest r.ancestors r2 hmem
    · intro l hl
      exact foldl_lcp2_greatest rest r.ancestors l
        (hl r (List.mem_cons_self r rest))
        (fun r2 h2 => hl r2 (List.mem_cons_of_mem r h2))
    · intro s hs
      have hmem := List.mem_of_find?_eq_some hs
      have hsat :=
        List.find?_some (p := fun s2 => strStartsWith (inner.scopes s2).prefixStr path) hs
      exact ⟨hmem, hsat⟩
    · unfold AppInner.infer_scope
      rw [common_ancestors_cons r rest]
      show (match (commonAnc r rest).find?
            (fun s2 => strStartsWith (inner.scopes s2).prefixStr path) with
         | some s => s
         | none =>
           match (commonAnc r rest).getLast? with
           | some s => s
           | none => NodeId.root) = _
      cases hf : (commonAnc r rest).find?
          (fun s2 => strStartsWith (inner.scopes s2).prefixStr path) with
      | some s => rfl
      | none =>
        rw [List.getLastD_eq_getLast?]
        cases (commonAnc r rest).getLast? <;> rfl

/-- Witness for the amended C1 at the concrete application: with candidates
`[exRes]` and path `/a/c` the oldest-satisfying search fails and the deepest
common ancestor is returned. -/
theorem infer_scope_oldest_or_deepest_witness :
    AppInner.infer_scope exApp "/a/c" [exRes] =
      ([0, 1, 2] : List NodeId).getLastD NodeId.root := by
  have h := ((infer_scope_oldest_or_deepest exApp "/a/c" [exRes]).2 exRes [] rfl).2.2.2.2
  rw [h]
  decide

end Tsukuyomi
